import Mathlib

/-!
Verification development for the Botquant repository (src/Quant.py), an MT5
trading bot. The Python source is shallowly embedded: floats become exact
rationals, Python round() becomes round-half-even on rationals, naive
datetimes become a (day ordinal, second-of-day) pair normalized exactly as
datetime plus timedelta normalizes, and broker queries become explicit
parameters. Global configuration constants keep their source names.
-/

namespace Botquant

/-! Configuration constants from src/Quant.py. -/

def SL_PIPS : ℚ := 20

def TP_PIPS : ℚ := 50

def PIP_SIZE : ℚ := 1/10

def DAILY_DD_USD : ℚ := 75/2

def USE_DYNAMIC_VB : Bool := true

def FIRE_WINDOW_SECONDS : ℤ := 10

def SYMBOL : String := "XAUUSD.QTR"

def IST_TRADE_TIMES : List String :=
  ["10:35", "11:35", "12:35", "13:35", "16:20",
   "16:35", "17:35", "18:35", "19:35", "20:35"]

def AUTO_SERVER_GMT3_MONTHS : List ℤ := [3, 4, 5, 6, 7, 8, 9, 10]

def MANUAL_SERVER_DELTA_MINUTES : Option ℤ := some 180

/-! Rounding. Python round() rounds half to even; round(x, n) rounds to n
decimal places. Modelled exactly on rationals. -/

def roundHalfEven (q : ℚ) : ℤ :=
  if q - ⌊q⌋ < 1/2 then ⌊q⌋
  else if (1 : ℚ)/2 < q - ⌊q⌋ then ⌊q⌋ + 1
  else if ⌊q⌋ % 2 = 0 then ⌊q⌋ else ⌊q⌋ + 1

def roundToDigits (n : ℕ) (q : ℚ) : ℚ :=
  (roundHalfEven (q * 10 ^ n) : ℚ) / 10 ^ n

/-! Lot sizing: lot_size_quanntekel from src/Quant.py lines 471-497.
The intraday realized P/L (global DAILY_REALIZED_PNL in the source), the
USE_DYNAMIC_VB flag and the broker-queried dollars_per_1usd_move_for_1lot
value are passed as parameters. 1e-9 is the literal from the source. -/

def lot_size_quanntekel (daily_realized_pnl : ℚ) (use_dynamic_vb : Bool)
    (per_dollar_1lot : ℚ) : ℚ :=
  let vb0 := DAILY_DD_USD + (if use_dynamic_vb then daily_realized_pnl else 0)
  let vb := max vb0 0
  let steps : ℤ := ⌊vb / 100⌋
  let lots := roundToDigits 2 ((steps : ℚ) * (2/100))
  let sl_usd_move := SL_PIPS * PIP_SIZE
  let lots2 :=
    if 0 < per_dollar_1lot then
      let max_lots_by_dd := DAILY_DD_USD / (per_dollar_1lot * sl_usd_move)
      if max_lots_by_dd < lots then
        max (1/100) (roundToDigits 2 (max_lots_by_dd - 1/1000000000))
      else lots
    else lots
  max (2/100) lots2

/-! Naive datetimes, as used for server-clock instants. A value is a day
ordinal (Python date.toordinal) plus a second-of-day; adding seconds
normalizes across days exactly as datetime + timedelta does. -/

structure NaiveDT where
  day : ℤ
  sec : ℤ
deriving DecidableEq, Repr

def addSeconds (t : NaiveDT) (k : ℤ) : NaiveDT :=
  ⟨t.day + (t.sec + k) / 86400, (t.sec + k) % 86400⟩

def NaiveDT.toSec (t : NaiveDT) : ℤ :=
  t.day * 86400 + t.sec

/-- A Python date value: its toordinal() together with its month field
(the only two attributes the source consults). -/
structure PyDate where
  ord : ℤ
  month : ℤ
deriving DecidableEq, Repr

def _server_gmt_offset_for_date (d : PyDate) : ℤ :=
  if d.month ∈ AUTO_SERVER_GMT3_MONTHS then 3 else 2

def _ist_to_server_delta_minutes_for_date (d : PyDate) : ℤ :=
  match MANUAL_SERVER_DELTA_MINUTES with
  | some v => v
  | none => roundHalfEven ((((_server_gmt_offset_for_date d) : ℚ) - 11/2) * 60)

/-! String helpers, written with structural recursion over character lists
so that concrete instances evaluate inside the kernel. -/

def splitOnChar (c : Char) : List Char → List (List Char)
  | [] => [[]]
  | x :: xs =>
    if x == c then [] :: splitOnChar c xs
    else
      match splitOnChar c xs with
      | [] => [[x]]
      | y :: ys => (x :: y) :: ys

def dropSpaces : List Char → List Char
  | [] => []
  | c :: cs => if c == ' ' then dropSpaces cs else c :: cs

def stripSpaces (l : List Char) : List Char :=
  (dropSpaces (dropSpaces l).reverse).reverse

/-- Does hay start with pat, on character lists. -/
def startsWithL : List Char → List Char → Bool
  | _, [] => true
  | [], _ :: _ => false
  | a :: as, b :: bs => a == b && startsWithL as bs

/-- Python substring membership, pat in hay, on character lists. -/
def containsL : List Char → List Char → Bool
  | [], pat => pat.isEmpty
  | h :: t, pat => startsWithL (h :: t) pat || containsL t pat

/-- Python substring test: sub in s. -/
def containsSub (s sub : String) : Bool :=
  containsL s.toList sub.toList

def lowerStr (s : String) : String :=
  String.mk (s.toList.map Char.toLower)

/-! Schedule-label parsing, _parse_hhmm from the source: strip, take the
first space-separated token, accept HH:MM or HH:MM:SS with 1-2 digit
fields, then range-check hour and minute. A raise becomes none. -/

def digits12 (l : List Char) : Bool :=
  (l.length == 1 || l.length == 2) && l.all Char.isDigit

def digitsVal (l : List Char) : ℤ :=
  l.foldl (fun a c => a * 10 + ((c.toNat : ℤ) - 48)) 0

/-- The regex shape check: two or, with a seconds field, three colon
separated groups of one or two digits. -/
def hhmm_core : List (List Char) → Option (List Char × List Char)
  | [h, m] => some (h, m)
  | [h, m, sec] => if digits12 sec then some (h, m) else none
  | _ => none

def _parse_hhmm (hhmm : String) : Option (ℤ × ℤ) :=
  match hhmm_core (splitOnChar ':'
      ((stripSpaces hhmm.toList).takeWhile (fun c => !(c == ' ')))) with
  | none => none
  | some (hs, ms) =>
    if digits12 hs && digits12 ms then
      if 0 ≤ digitsVal hs ∧ digitsVal hs < 24 ∧ 0 ≤ digitsVal ms ∧ digitsVal ms < 60 then
        some (digitsVal hs, digitsVal ms)
      else none
    else none

/-- Two-digit zero-padded rendering, as f-string 02d formatting produces for
the range 0-99 that hour and minute fields live in. -/
def fmt2 (n : ℤ) : String :=
  String.mk [Char.ofNat (48 + (n / 10).toNat), Char.ofNat (48 + (n % 10).toNat)]

def fmtKey (h m : ℤ) : String :=
  fmt2 h ++ ":" ++ fmt2 m

/-- The civil (IST) wall-clock instant for hour h, minute m of day d, in
naive form, as datetime.combine produces it. -/
def civil_dt (d : PyDate) (h m : ℤ) : NaiveDT :=
  ⟨d.ord, (h * 60 + m) * 60⟩

/-- One slot of build_server_schedule_for_day: the IST wall clock plus the
configured delta, with tzinfo dropped (wall-clock arithmetic). -/
def translate_slot (d : PyDate) (h m : ℤ) : NaiveDT :=
  addSeconds (civil_dt d h m) (_ist_to_server_delta_minutes_for_date d * 60)

def build_server_schedule_for_times (times : List String) (d : PyDate) :
    List (String × NaiveDT) :=
  times.filterMap (fun s =>
    (_parse_hhmm s).map (fun hm => (fmtKey hm.1 hm.2, translate_slot d hm.1 hm.2)))

def build_server_schedule_for_day (d : PyDate) : List (String × NaiveDT) :=
  build_server_schedule_for_times IST_TRADE_TIMES d

/-! The trigger loop slot check, src/Quant.py lines 612-665. Times are
flattened to integer seconds. On every poll tick the loop walks the slot
list; an unfired slot fires (the trade-entry branch runs) when
abs(lag) is at most the window, and is forfeited (marked fired with no
trade-entry branch) when lag exceeds the window. -/

inductive SlotEvent
  | fire (label : String) (t : ℤ)
  | forfeit (label : String) (t : ℤ)
deriving DecidableEq, Repr

def SlotEvent.label : SlotEvent → String
  | .fire l _ => l
  | .forfeit l _ => l

/-- One pass of the for-loop over the schedule at a single poll tick now:
returns the updated executed set and the emitted events in order. -/
def slotCheck (w now : ℤ) : List (String × ℤ) → List String → List String × List SlotEvent
  | [], ex => (ex, [])
  | (lbl, T) :: rest, ex =>
    if lbl ∈ ex then slotCheck w now rest ex
    else if |now - T| ≤ w then
      ((slotCheck w now rest (lbl :: ex)).1,
        SlotEvent.fire lbl now :: (slotCheck w now rest (lbl :: ex)).2)
    else if now - T > w then
      ((slotCheck w now rest (lbl :: ex)).1,
        SlotEvent.forfeit lbl now :: (slotCheck w now rest (lbl :: ex)).2)
    else slotCheck w now rest ex

/-- A server day of the trigger loop: the slot check at each successive
poll tick, accumulating the executed set and the event trace. -/
def runDay (w : ℤ) (sched : List (String × ℤ)) :
    List ℤ → List String → List String × List SlotEvent
  | [], ex => (ex, [])
  | t :: ts, ex =>
    ((runDay w sched ts (slotCheck w t sched ex).1).1,
      (slotCheck w t sched ex).2 ++ (runDay w sched ts (slotCheck w t sched ex).1).2)

def eventsFor (lbl : String) (evs : List SlotEvent) : List SlotEvent :=
  evs.filter (fun e => e.label == lbl)

/-! Main-loop state, src/Quant.py lines 571-670: the executed set, the
last observed server day, the schedule for today and the process-wide
intraday realized P/L accumulator. -/

structure LoopState where
  executed_ist_today : List String
  current_server_day : Option ℤ
  today_server_sched : List (String × NaiveDT)
  daily_realized_pnl : ℚ
deriving DecidableEq

/-- The day-rollover block, lines 591-597: when the observed server date
differs from the last one, clear the fired flags, rebuild the schedule for
the IST day, and zero DAILY_REALIZED_PNL. Otherwise leave the state alone. -/
def dayStart (st : LoopState) (server_day : ℤ) (ist_day : PyDate) : LoopState :=
  if st.current_server_day ≠ some server_day then
    { executed_ist_today := []
      current_server_day := some server_day
      today_server_sched := build_server_schedule_for_day ist_day
      daily_realized_pnl := 0 }
  else st

/-- The slot-check phase of one loop iteration: it only updates the
executed set; the P/L accumulator is not touched by this phase. -/
def applySlotCheck (st : LoopState) (now : NaiveDT) : LoopState :=
  { st with executed_ist_today :=
      (slotCheck FIRE_WINDOW_SECONDS now.toSec
        (st.today_server_sched.map (fun p => (p.1, p.2.toSec)))
        st.executed_ist_today).1 }

/-- One iteration of the main while-loop: day rollover first, then the
slot check against the (possibly fresh) schedule. -/
def loopIter (st : LoopState) (server_day : ℤ) (ist_day : PyDate) (now : NaiveDT) :
    LoopState :=
  applySlotCheck (dayStart st server_day ist_day) now

/-! TradeWatcher phase 3, src/Quant.py lines 241-262: filter history deals
by position id, fall back to tag matching, sum the profit over the
matched deals, and classify from the last matched deal comment. -/

structure Deal where
  position_id : ℤ
  symbol : String
  profit : ℚ
  time : ℤ
  comment : String
deriving DecidableEq

/-- Stable insertion into a time-sorted list: list.sort(key=time) keeps
equal-time deals in their original order. -/
def insertByTime (d : Deal) : List Deal → List Deal
  | [] => [d]
  | e :: es => if d.time ≤ e.time then d :: e :: es else e :: insertByTime d es

def sortByTime (l : List Deal) : List Deal :=
  l.foldr insertByTime []

/-- Python truthiness of the optional position ticket: None and 0 are falsy. -/
def truthyTicket : Option ℤ → Bool
  | none => false
  | some t => t != 0

/-- The by_pos selection: deals of this position, else deals whose comment
holds the correlation tag, always restricted to the symbol. -/
def matched_deals (pos_ticket : Option ℤ) (trade_tag : String) (deals : List Deal) :
    List Deal :=
  let by_pos :=
    if truthyTicket pos_ticket then
      deals.filter (fun d => d.position_id == pos_ticket.getD 0 && d.symbol == SYMBOL)
    else []
  if by_pos.isEmpty then
    deals.filter (fun d => containsSub d.comment trade_tag && d.symbol == SYMBOL)
  else by_pos

/-- Outcome classification from the lowercased last-deal comment, else by
profit sign: strictly positive is WIN, otherwise LOSS. -/
def classify_result (profit : ℚ) (dc : String) : String :=
  if containsSub dc "tp" then "TP"
  else if containsSub dc "sl" then "SL"
  else if profit > 0 then "WIN" else "LOSS"

/-- Profit reconciliation and outcome: returns (profit, result_text). If no
deals arrive or nothing matches, the defaults 0.0 and Closed survive. The
function is total: every input yields a record, nothing is raised. -/
def watcher_phase3 (pos_ticket : Option ℤ) (trade_tag : String) (deals : List Deal) :
    ℚ × String :=
  if deals.isEmpty then (0, "Closed")
  else
    let by_pos := matched_deals pos_ticket trade_tag deals
    match (sortByTime by_pos).getLast? with
    | none => (0, "Closed")
    | some lastd =>
      let profit := ((sortByTime by_pos).map Deal.profit).sum
      (profit, classify_result profit (lowerStr lastd.comment))

/-! Re-anchoring, src/Quant.py lines 369-455: recompute SL/TP from the
confirmed entry, push them out to the broker minimum stop distance, and
modify only when the attached values differ enough. -/

structure SymInfo where
  point : ℚ
  digits : ℕ
  trade_stops_level : ℤ
deriving DecidableEq

def normalize_price (si : SymInfo) (price : ℚ) : ℚ :=
  roundToDigits si.digits price

def compute_sl_tp_from (si : SymInfo) (entry : ℚ) (side : String) : ℚ × ℚ :=
  let sl_dist := SL_PIPS * PIP_SIZE
  let tp_dist := TP_PIPS * PIP_SIZE
  if side == "BUY" then
    (normalize_price si (entry - sl_dist), normalize_price si (entry + tp_dist))
  else
    (normalize_price si (entry + sl_dist), normalize_price si (entry - tp_dist))

def enforce_min_distance (si : SymInfo) (entry sl tp : ℚ) (side : String) : ℚ × ℚ :=
  let min_dist := if si.trade_stops_level != 0 then (si.trade_stops_level : ℚ) * si.point else 0
  if min_dist ≤ 0 then (sl, tp)
  else if side == "BUY" then
    (if entry - sl < min_dist then normalize_price si (entry - min_dist) else sl,
     if tp - entry < min_dist then normalize_price si (entry + min_dist) else tp)
  else
    (if sl - entry < min_dist then normalize_price si (entry + min_dist) else sl,
     if entry - tp < min_dist then normalize_price si (entry - min_dist) else tp)

structure Position where
  ticket : ℤ
  price_open : ℚ
  sl : ℚ
  tp : ℚ
deriving DecidableEq

/-- The SL/TP pair the re-anchor derives from the confirmed entry. -/
def reanchored_sl_tp (si : SymInfo) (entry : ℚ) (side : String) : ℚ × ℚ :=
  enforce_min_distance si entry (compute_sl_tp_from si entry side).1
    (compute_sl_tp_from si entry side).2 side

/-- reanchor_sl_tp_by_position: none means no modify-stops request is
issued; some (sl, tp) is the issued TRADE_ACTION_SLTP request. -/
def reanchor_sl_tp_by_position (si : SymInfo) (positions : List Position)
    (position_ticket : ℤ) (side : String) : Option (ℚ × ℚ) :=
  if position_ticket == 0 then none
  else
    match positions.find? (fun p => p.ticket == position_ticket) with
    | none => none
    | some pos =>
      let new1 := reanchored_sl_tp si pos.price_open side
      let diff_sl := |pos.sl - new1.1|
      let diff_tp := |pos.tp - new1.2|
      if diff_sl < si.point ∧ diff_tp < si.point then none
      else some new1

/-! Report sentinels, src/Quant.py lines 287-335. A claim attempt is the
caller sequence of run_email_end_of_day_if_last_trade_closed: first
_already_sent (an exists check), then _mark_sent_atomic. The raiseOther
flag of an attempt models os.open raising an exception other than
FileExistsError at that call, which the generic except branch of
_mark_sent_atomic handles; false is the normal exclusive-create path. -/

inductive Phase
  | check
  | mark
deriving DecidableEq

structure Attempt where
  key : String
  raiseOther : Bool
deriving DecidableEq

def _already_sent (files : List String) (key : String) : Bool :=
  files.contains key

/-- _mark_sent_atomic over the set of existing sentinel files: the normal
path is an exclusive create; under raiseOther the source falls back to a
plain create when the file is absent and otherwise returns p.exists(). -/
def _mark_sent_atomic (raiseOther : Bool) (files : List String) (key : String) :
    List String × Bool :=
  if raiseOther then
    if files.contains key then (files, true)
    else (key :: files, true)
  else
    if files.contains key then (files, false)
    else (key :: files, true)

structure SentinelSys where
  files : List String
  passedCheck : List ℕ
  delivered : List ℕ
deriving DecidableEq

/-- One step of an interleaved execution of claim attempts: attempt i runs
its check phase or, once its check saw no sentinel, its mark phase; a
mark that returns true delivers the report. -/
def stepSys (attempts : List Attempt) (sys : SentinelSys) (ev : ℕ × Phase) :
    SentinelSys :=
  match attempts.get? ev.1 with
  | none => sys
  | some a =>
    match ev.2 with
    | .check =>
      if _already_sent sys.files a.key then sys
      else { sys with passedCheck := sys.passedCheck ++ [ev.1] }
    | .mark =>
      if ev.1 ∈ sys.passedCheck then
        let r := _mark_sent_atomic a.raiseOther sys.files a.key
        if r.2 then { files := r.1, passedCheck := sys.passedCheck,
                      delivered := sys.delivered ++ [ev.1] }
        else { sys with files := r.1 }
      else sys

def runSys (attempts : List Attempt) (evs : List (ℕ × Phase)) : SentinelSys :=
  evs.foldl (stepSys attempts) ⟨[], [], []⟩

/-! Evaluation and bound lemmas for the rounding primitives. -/

theorem floorQ_eq (q : ℚ) (z : ℤ) (h1 : (z : ℚ) ≤ q) (h2 : q < z + 1) : ⌊q⌋ = z :=
  Int.floor_eq_iff.mpr ⟨h1, h2⟩

theorem roundHalfEven_low (q : ℚ) (z : ℤ) (h1 : (z : ℚ) ≤ q) (h2 : q < z + 1/2) :
    roundHalfEven q = z := by
  have hf : ⌊q⌋ = z := floorQ_eq q z h1 (by linarith)
  unfold roundHalfEven
  rw [hf, if_pos (by linarith)]

theorem roundHalfEven_high (q : ℚ) (z : ℤ) (h1 : (z : ℚ) + 1/2 < q) (h2 : q < z + 1) :
    roundHalfEven q = z + 1 := by
  have hf : ⌊q⌋ = z := floorQ_eq q z (by linarith) h2
  unfold roundHalfEven
  rw [hf, if_neg (by linarith), if_pos (by linarith)]

theorem roundToDigits_low (n : ℕ) (q : ℚ) (z : ℤ) (h1 : (z : ℚ) ≤ q * 10 ^ n)
    (h2 : q * 10 ^ n < z + 1/2) : roundToDigits n q = z / 10 ^ n := by
  unfold roundToDigits
  rw [roundHalfEven_low (q * 10 ^ n) z h1 h2]

theorem roundToDigits_high (n : ℕ) (q : ℚ) (z : ℤ) (h1 : (z : ℚ) + 1/2 < q * 10 ^ n)
    (h2 : q * 10 ^ n < z + 1) : roundToDigits n q = ((z + 1 : ℤ) : ℚ) / 10 ^ n := by
  unfold roundToDigits
  rw [roundHalfEven_high (q * 10 ^ n) z h1 h2]

theorem roundHalfEven_le (q : ℚ) : (roundHalfEven q : ℚ) ≤ q + 1/2 := by
  have h1 : (⌊q⌋ : ℚ) ≤ q := Int.floor_le q
  unfold roundHalfEven
  split_ifs with ha hb hc
  · linarith
  · push_cast
    linarith
  · linarith
  · push_cast
    linarith

theorem roundToDigits2_le (q : ℚ) : roundToDigits 2 q ≤ q + 1/200 := by
  have h := roundHalfEven_le (q * 10 ^ 2)
  unfold roundToDigits
  rw [div_le_iff₀ (by norm_num : (0:ℚ) < 10 ^ 2)]
  push_cast at h ⊢
  linarith

/-- C2: for every intraday realized P/L (and any dynamic-budget setting and
any per-unit risk the broker reports), lot_size_quanntekel returns at least
0.02; and with the 37.50 risk cap and the dynamic budget disabled it
returns exactly 0.02: steps is 0 and the minimum-volume floor applies. -/
theorem C2_min_volume_floor :
    (∀ (pnl : ℚ) (dyn : Bool) (per : ℚ), 2/100 ≤ lot_size_quanntekel pnl dyn per)
    ∧ (∀ pnl per : ℚ, lot_size_quanntekel pnl false per = 2/100) := by
  constructor
  · intro pnl dyn per
    simp only [lot_size_quanntekel]
    exact le_max_left _ _
  · intro pnl per
    simp only [lot_size_quanntekel]
    have hvb : ((DAILY_DD_USD + if (false : Bool) then pnl else 0) ⊔ 0 : ℚ) = 75/2 := by
      norm_num [DAILY_DD_USD]
    rw [hvb]
    have hsteps : ⌊(75/2 : ℚ) / 100⌋ = (0 : ℤ) := by
      apply floorQ_eq <;> norm_num
    rw [hsteps]
    have hlots : roundToDigits 2 (((0 : ℤ) : ℚ) * (2/100)) = (0 : ℤ) / 10 ^ 2 := by
      apply roundToDigits_low <;> norm_num
    rw [hlots]
    by_cases hper : (0:ℚ) < per
    · rw [if_pos hper]
      have hnn : ¬(DAILY_DD_USD / (per * (SL_PIPS * PIP_SIZE)) < ((0 : ℤ) : ℚ) / 10 ^ 2) := by
        push_cast
        rw [zero_div]
        refine not_lt.mpr ?_
        apply div_nonneg
        · norm_num [DAILY_DD_USD]
        · have h2 : (0:ℚ) < SL_PIPS * PIP_SIZE := by norm_num [SL_PIPS, PIP_SIZE]
          exact mul_nonneg hper.le h2.le
      rw [if_neg hnn]
      norm_num
    · rw [if_neg hper]
      norm_num

/-- C3 counterexample: at realized P/L +262.50 with dynamic budget on and a
per-unit risk of 400, the budget is 300, raw volume 0.06 exceeds the cap
quotient 0.046875, and rounding the clamped quotient to two decimals gives
0.05: the returned volume is above the 0.02 floor, yet the stop-loss
monetary risk is 0.05 * 2 * 400 = 40, which exceeds the 37.50 cap, so the
claimed inequality fails off the floor. -/
theorem C3_counterexample :
    lot_size_quanntekel (525/2) true 400 = 1/20
    ∧ (2/100 : ℚ) < 1/20
    ∧ DAILY_DD_USD < (1/20 : ℚ) * (SL_PIPS * PIP_SIZE) * 400 := by
  refine ⟨?_, by norm_num, by norm_num [DAILY_DD_USD, SL_PIPS, PIP_SIZE]⟩
  simp only [lot_size_quanntekel]
  have h1 : ((DAILY_DD_USD + if True then (525/2 : ℚ) else 0) ⊔ 0) = 300 := by
    norm_num [DAILY_DD_USD]
  rw [h1]
  have h2 : ⌊(300 : ℚ) / 100⌋ = (3 : ℤ) := by
    apply floorQ_eq <;> norm_num
  rw [h2]
  have h3 : roundToDigits 2 (((3 : ℤ) : ℚ) * (2/100)) = 3/50 := by
    rw [roundToDigits_low 2 _ 6 (by norm_num) (by norm_num)]
    norm_num
  rw [h3]
  rw [if_pos (by norm_num : (0:ℚ) < 400)]
  rw [if_pos (by norm_num [DAILY_DD_USD, SL_PIPS, PIP_SIZE] :
    DAILY_DD_USD / (400 * (SL_PIPS * PIP_SIZE)) < (3/50 : ℚ))]
  have h4 : roundToDigits 2 (DAILY_DD_USD / (400 * (SL_PIPS * PIP_SIZE)) - 1/1000000000)
      = 1/20 := by
    rw [roundToDigits_high 2 _ 4 (by norm_num [DAILY_DD_USD, SL_PIPS, PIP_SIZE])
      (by norm_num [DAILY_DD_USD, SL_PIPS, PIP_SIZE])]
    norm_num
  rw [h4]
  norm_num [max_def]

/-- C3 amended: for every P/L input and every positive per-unit risk,
whenever the returned volume is strictly above the 0.02 floor, the
stop-loss monetary risk exceeds the 37.50 daily cap by at most the
half-cent volume rounding slack: volume * slDistance * perUnitRisk is at
most cap + 0.005 * slDistance * perUnitRisk. The claimed strict cap holds
except for this rounding of the clamped volume to two decimals. -/
theorem C3_risk_cap_with_rounding_slack (pnl : ℚ) (dyn : Bool) (per : ℚ)
    (hper : 0 < per) (hfloor : 2/100 < lot_size_quanntekel pnl dyn per) :
    lot_size_quanntekel pnl dyn per * (SL_PIPS * PIP_SIZE) * per
      ≤ DAILY_DD_USD + 1/200 * ((SL_PIPS * PIP_SIZE) * per) := by
  have hs : (SL_PIPS * PIP_SIZE : ℚ) = 2 := by norm_num [SL_PIPS, PIP_SIZE]
  have hdd : (DAILY_DD_USD : ℚ) = 75/2 := by norm_num [DAILY_DD_USD]
  simp only [lot_size_quanntekel] at hfloor ⊢
  rw [if_pos hper] at hfloor ⊢
  set L := roundToDigits 2
    ((⌊((DAILY_DD_USD + if dyn then pnl else 0) ⊔ 0) / 100⌋ : ℚ) * (2/100)) with hLdef
  set M := DAILY_DD_USD / (per * (SL_PIPS * PIP_SIZE)) with hMdef
  have hMmul : M * ((SL_PIPS * PIP_SIZE) * per) = DAILY_DD_USD := by
    rw [hMdef, hs, hdd]
    field_simp
    ring
  by_cases hc : M < L
  · rw [if_pos hc] at hfloor ⊢
    set R := roundToDigits 2 (M - 1/1000000000) with hRdef
    have hRM : R ≤ M + 1/200 := by
      have := roundToDigits2_le (M - 1/1000000000)
      rw [← hRdef] at this
      linarith
    have hgt : 2/100 < (1:ℚ)/100 ⊔ R := by
      rcases lt_max_iff.mp hfloor with h | h
      · exact absurd h (lt_irrefl _)
      · exact h
    have hR2 : 2/100 < R := by
      rcases lt_max_iff.mp hgt with h | h
      · norm_num at h
      · exact h
    have hmax2 : (2/100 : ℚ) ⊔ (((1:ℚ)/100) ⊔ R) = R := by
      rw [max_eq_right (by linarith : ((1:ℚ)/100) ≤ R)]
      exact max_eq_right (by linarith)
    rw [hmax2]
    have hsper : (0:ℚ) < (SL_PIPS * PIP_SIZE) * per := by
      rw [hs]
      positivity
    calc R * (SL_PIPS * PIP_SIZE) * per
        = R * ((SL_PIPS * PIP_SIZE) * per) := by ring
      _ ≤ (M + 1/200) * ((SL_PIPS * PIP_SIZE) * per) :=
          mul_le_mul_of_nonneg_right hRM hsper.le
      _ = M * ((SL_PIPS * PIP_SIZE) * per) + 1/200 * ((SL_PIPS * PIP_SIZE) * per) := by
          ring
      _ = DAILY_DD_USD + 1/200 * ((SL_PIPS * PIP_SIZE) * per) := by rw [hMmul]
  · rw [if_neg hc] at hfloor ⊢
    have hLM : L ≤ M := not_lt.mp hc
    have hL2 : 2/100 < L := by
      rcases lt_max_iff.mp hfloor with h | h
      · exact absurd h (lt_irrefl _)
      · exact h
    rw [max_eq_right hL2.le]
    have hsper : (0:ℚ) < (SL_PIPS * PIP_SIZE) * per := by
      rw [hs]
      positivity
    calc L * (SL_PIPS * PIP_SIZE) * per
        = L * ((SL_PIPS * PIP_SIZE) * per) := by ring
      _ ≤ M * ((SL_PIPS * PIP_SIZE) * per) := mul_le_mul_of_nonneg_right hLM hsper.le
      _ = DAILY_DD_USD := hMmul
      _ ≤ DAILY_DD_USD + 1/200 * ((SL_PIPS * PIP_SIZE) * per) := by
          have h0 : (0:ℚ) ≤ 1/200 * ((SL_PIPS * PIP_SIZE) * per) := by
            rw [hs]
            positivity
          linarith

/-- A concrete evaluation for the C3 witness: P/L +262.50, per-unit risk
100; the cap quotient 0.1875 does not bind, so the sizer returns 0.06. -/
theorem lot_size_at_262_100 : lot_size_quanntekel (525/2) true 100 = 3/50 := by
  simp only [lot_size_quanntekel]
  have h1 : ((DAILY_DD_USD + if True then (525/2 : ℚ) else 0) ⊔ 0) = 300 := by
    norm_num [DAILY_DD_USD]
  rw [h1]
  have h2 : ⌊(300 : ℚ) / 100⌋ = (3 : ℤ) := by
    apply floorQ_eq <;> norm_num
  rw [h2]
  have h3 : roundToDigits 2 (((3 : ℤ) : ℚ) * (2/100)) = 3/50 := by
    rw [roundToDigits_low 2 _ 6 (by norm_num) (by norm_num)]
    norm_num
  rw [h3]
  rw [if_pos (by norm_num : (0:ℚ) < 100)]
  rw [if_neg (by norm_num [DAILY_DD_USD, SL_PIPS, PIP_SIZE] :
    ¬(DAILY_DD_USD / (100 * (SL_PIPS * PIP_SIZE)) < (3/50 : ℚ)))]
  norm_num [max_def]

/-- C3 witness: the amended bound instantiated at P/L +262.50 and
per-unit risk 100, where the returned volume 0.06 is above the floor. -/
theorem C3_risk_cap_witness :
    (0:ℚ) < 100
    ∧ 2/100 < lot_size_quanntekel (525/2) true 100
    ∧ lot_size_quanntekel (525/2) true 100 * (SL_PIPS * PIP_SIZE) * 100
        ≤ DAILY_DD_USD + 1/200 * ((SL_PIPS * PIP_SIZE) * 100) := by
  have hfl : 2/100 < lot_size_quanntekel (525/2) true 100 := by
    rw [lot_size_at_262_100]
    norm_num
  exact ⟨by norm_num, hfl,
    C3_risk_cap_with_rounding_slack (525/2) true 100 (by norm_num) hfl⟩

/-! Schedule translation. -/

theorem parse_hhmm_bounds (s : String) (h m : ℤ) (hp : _parse_hhmm s = some (h, m)) :
    0 ≤ h ∧ h < 24 ∧ 0 ≤ m ∧ m < 60 := by
  unfold _parse_hhmm at hp
  split at hp
  · exact absurd hp (by simp)
  · split_ifs at hp with h1 h2
    simp only [Option.some.injEq, Prod.mk.injEq] at hp
    obtain ⟨rfl, rfl⟩ := hp
    exact h2

theorem addSeconds_cancel (t : NaiveDT) (k : ℤ) (h0 : 0 ≤ t.sec) (h1 : t.sec < 86400) :
    addSeconds (addSeconds t k) (-k) = t := by
  cases t with
  | mk d s =>
    simp only [addSeconds, NaiveDT.mk.injEq] at h0 h1 ⊢
    constructor <;> omega

/-- C4: every configured civil label that parses to hour h and minute m is
mapped by the schedule builder to the civil instant shifted by the day
delta in minutes, and shifting the translated instant back by the same
delta returns the original civil instant. The witness instantiates
scenario A: label 10:35, delta +180 minutes, day 2024-01-15 (ordinal
738900), giving server instant 2024-01-15 13:35:00. -/
theorem C4_schedule_translation (d : PyDate) (s : String) (h m : ℤ)
    (hs : s ∈ IST_TRADE_TIMES) (hp : _parse_hhmm s = some (h, m)) :
    (fmtKey h m, translate_slot d h m) ∈ build_server_schedule_for_day d
    ∧ translate_slot d h m
        = addSeconds (civil_dt d h m) (_ist_to_server_delta_minutes_for_date d * 60)
    ∧ addSeconds (translate_slot d h m) (-(_ist_to_server_delta_minutes_for_date d * 60))
        = civil_dt d h m := by
  obtain ⟨hh0, hh1, hm0, hm1⟩ := parse_hhmm_bounds s h m hp
  refine ⟨?_, rfl, ?_⟩
  · refine List.mem_filterMap.mpr ⟨s, hs, ?_⟩
    rw [hp]
    rfl
  · unfold translate_slot
    apply addSeconds_cancel
    · simp only [civil_dt]
      nlinarith
    · simp only [civil_dt]
      nlinarith

/-- C4 witness: scenario A, with the concrete translated instant
2024-01-15 13:35:00 (second-of-day 48900 of ordinal day 738900). -/
theorem C4_schedule_translation_witness :
    ((fmtKey 10 35, translate_slot ⟨738900, 1⟩ 10 35)
        ∈ build_server_schedule_for_day ⟨738900, 1⟩
    ∧ translate_slot ⟨738900, 1⟩ 10 35
        = addSeconds (civil_dt ⟨738900, 1⟩ 10 35)
            (_ist_to_server_delta_minutes_for_date ⟨738900, 1⟩ * 60)
    ∧ addSeconds (translate_slot ⟨738900, 1⟩ 10 35)
          (-(_ist_to_server_delta_minutes_for_date ⟨738900, 1⟩ * 60))
        = civil_dt ⟨738900, 1⟩ 10 35)
    ∧ translate_slot ⟨738900, 1⟩ 10 35 = ⟨738900, 48900⟩ :=
  ⟨C4_schedule_translation ⟨738900, 1⟩ "10:35" 10 35 (by decide) (by decide), by decide⟩

/-- C9 counterexample: the valid civil label 23:35 with the configured
+180 minute delta translates, for civil day 2024-01-15 (ordinal 738900),
to 2024-01-16 02:35:00 (ordinal 738901, second 9300): datetime addition
normalizes across midnight, so the date part of the built instant is the
rolled-over day, not the requested civil day as claimed. -/
theorem C9_counterexample :
    _parse_hhmm "23:35" = some (23, 35)
    ∧ build_server_schedule_for_times ["23:35"] ⟨738900, 1⟩ = [("23:35", ⟨738901, 9300⟩)]
    ∧ (translate_slot ⟨738900, 1⟩ 23 35).day ≠ (738900 : ℤ) := by
  decide

/-- C9 amended: when the civil instant plus the offset crosses server
midnight, the builder emits the normalized sum: the date part is the
requested civil day plus one and the time wraps modulo 24 hours; nothing
re-anchors the date component back to the requested day. -/
theorem C9_midnight_rollover (d : PyDate) (s : String) (h m : ℤ)
    (hp : _parse_hhmm s = some (h, m))
    (hcross : 86400 ≤ (h * 60 + m) * 60 + _ist_to_server_delta_minutes_for_date d * 60) :
    (translate_slot d h m).day = d.ord + 1
    ∧ (translate_slot d h m).sec
        = (h * 60 + m) * 60 + _ist_to_server_delta_minutes_for_date d * 60 - 86400 := by
  obtain ⟨hh0, hh1, hm0, hm1⟩ := parse_hhmm_bounds s h m hp
  have hdelta : _ist_to_server_delta_minutes_for_date d = 180 := rfl
  rw [hdelta] at hcross ⊢
  simp only [translate_slot, civil_dt, addSeconds]
  constructor <;> omega

/-- C9 witness: the amended statement instantiated at label 23:35 and
civil day ordinal 738900. -/
theorem C9_midnight_rollover_witness :
    (_parse_hhmm "23:35" = some (23, 35)
      ∧ 86400 ≤ ((23:ℤ) * 60 + 35) * 60
          + _ist_to_server_delta_minutes_for_date ⟨738900, 1⟩ * 60)
    ∧ (translate_slot ⟨738900, 1⟩ 23 35).day = 738900 + 1 := by
  refine ⟨⟨by decide, by decide⟩, ?_⟩
  exact (C9_midnight_rollover ⟨738900, 1⟩ "23:35" 23 35 (by decide) (by decide)).1

/-- C5: with two interleaved claim attempts for the same period key, the
first running the normal exclusive-create path and the second hitting the
generic exception branch of _mark_sent_atomic (os.open raising an error
other than FileExistsError), both attempts pass the _already_sent check,
both calls of _mark_sent_atomic return true and both deliver: the second
delivery the spec and the module docstring rule out does occur. -/
theorem C5_sentinel_double_delivery :
    (runSys [⟨"daily_2024-01-15", false⟩, ⟨"daily_2024-01-15", true⟩]
        [(0, Phase.check), (1, Phase.check), (0, Phase.mark), (1, Phase.mark)]).delivered
      = [0, 1]
    ∧ ([⟨"daily_2024-01-15", false⟩, ⟨"daily_2024-01-15", true⟩] : List Attempt).map
        Attempt.key = ["daily_2024-01-15", "daily_2024-01-15"] := by
  decide

/-! Trigger loop. -/

theorem eventsFor_append (lbl : String) (a b : List SlotEvent) :
    eventsFor lbl (a ++ b) = eventsFor lbl a ++ eventsFor lbl b := by
  simp [eventsFor]

theorem mem_eventsFor_fire (lbl : String) (t : ℤ) (evs : List SlotEvent) :
    SlotEvent.fire lbl t ∈ eventsFor lbl evs ↔ SlotEvent.fire lbl t ∈ evs := by
  simp [eventsFor, List.mem_filter, SlotEvent.label]

theorem mem_eventsFor_forfeit (lbl : String) (t : ℤ) (evs : List SlotEvent) :
    SlotEvent.forfeit lbl t ∈ eventsFor lbl evs ↔ SlotEvent.forfeit lbl t ∈ evs := by
  simp [eventsFor, List.mem_filter, SlotEvent.label]


theorem eventsFor_cons_match (lbl : String) (e : SlotEvent) (evs : List SlotEvent)
    (h : e.label = lbl) : eventsFor lbl (e :: evs) = e :: eventsFor lbl evs := by
  simp [eventsFor, h]

theorem eventsFor_cons_other (lbl : String) (e : SlotEvent) (evs : List SlotEvent)
    (h : e.label ≠ lbl) : eventsFor lbl (e :: evs) = eventsFor lbl evs := by
  simp [eventsFor, h]

theorem slotCheck_fired (w now : ℤ) (sched : List (String × ℤ)) (ex : List String)
    (lbl : String) (h : lbl ∈ ex) :
    lbl ∈ (slotCheck w now sched ex).1
    ∧ eventsFor lbl (slotCheck w now sched ex).2 = [] := by
  induction sched generalizing ex with
  | nil => exact ⟨h, rfl⟩
  | cons p rest ih =>
    obtain ⟨l, T⟩ := p
    unfold slotCheck
    split_ifs with h1 h2 h3
    · exact ih ex h
    · have hlne : l ≠ lbl := fun he => h1 (he ▸ h)
      obtain ⟨ha, hb⟩ := ih (l :: ex) (List.mem_cons_of_mem _ h)
      refine ⟨ha, ?_⟩
      rw [eventsFor_cons_other lbl _ _ (by simp [SlotEvent.label, hlne])]
      exact hb
    · have hlne : l ≠ lbl := fun he => h1 (he ▸ h)
      obtain ⟨ha, hb⟩ := ih (l :: ex) (List.mem_cons_of_mem _ h)
      refine ⟨ha, ?_⟩
      rw [eventsFor_cons_other lbl _ _ (by simp [SlotEvent.label, hlne])]
      exact hb
    · exact ih ex h

theorem slotCheck_absent (w now : ℤ) (sched : List (String × ℤ)) (ex : List String)
    (lbl : String) (hk : lbl ∉ sched.map Prod.fst) (hex : lbl ∉ ex) :
    lbl ∉ (slotCheck w now sched ex).1
    ∧ eventsFor lbl (slotCheck w now sched ex).2 = [] := by
  induction sched generalizing ex with
  | nil => exact ⟨hex, rfl⟩
  | cons p rest ih =>
    obtain ⟨l, T⟩ := p
    have hlne : l ≠ lbl := by
      intro he
      exact hk (by simp [he])
    have hk2 : lbl ∉ rest.map Prod.fst := fun hm => hk (by simp [hm])
    have hnotin : lbl ∉ l :: ex := by
      intro hmem
      rcases List.mem_cons.mp hmem with he | he
      · exact hlne he.symm
      · exact hex he
    unfold slotCheck
    split_ifs with h1 h2 h3
    · exact ih ex hk2 hex
    · obtain ⟨ha, hb⟩ := ih (l :: ex) hk2 hnotin
      refine ⟨ha, ?_⟩
      rw [eventsFor_cons_other lbl _ _ (by simp [SlotEvent.label, hlne])]
      exact hb
    · obtain ⟨ha, hb⟩ := ih (l :: ex) hk2 hnotin
      refine ⟨ha, ?_⟩
      rw [eventsFor_cons_other lbl _ _ (by simp [SlotEvent.label, hlne])]
      exact hb
    · exact ih ex hk2 hex

theorem slotCheck_unfired (w now : ℤ) (sched : List (String × ℤ)) (ex : List String)
    (lbl : String) (T : ℤ)
    (hnd : (sched.map Prod.fst).Nodup) (hmem : (lbl, T) ∈ sched) (hex : lbl ∉ ex) :
    (|now - T| ≤ w →
      lbl ∈ (slotCheck w now sched ex).1
      ∧ eventsFor lbl (slotCheck w now sched ex).2 = [SlotEvent.fire lbl now])
    ∧ (¬(|now - T| ≤ w) → now - T > w →
      lbl ∈ (slotCheck w now sched ex).1
      ∧ eventsFor lbl (slotCheck w now sched ex).2 = [SlotEvent.forfeit lbl now])
    ∧ (¬(|now - T| ≤ w) → ¬(now - T > w) →
      lbl ∉ (slotCheck w now sched ex).1
      ∧ eventsFor lbl (slotCheck w now sched ex).2 = []) := by
  induction sched generalizing ex with
  | nil => exact absurd hmem (List.not_mem_nil _)
  | cons p rest ih =>
    obtain ⟨l, T2⟩ := p
    rcases List.mem_cons.mp hmem with hhead | htail
    · rw [Prod.mk.injEq] at hhead
      obtain ⟨rfl, rfl⟩ := hhead
      have hknot : lbl ∉ rest.map Prod.fst := (List.nodup_cons.mp hnd).1
      refine ⟨?_, ?_, ?_⟩
      · intro hin
        unfold slotCheck
        rw [if_neg hex, if_pos hin]
        obtain ⟨ha, hb⟩ := slotCheck_fired w now rest (lbl :: ex) lbl (List.mem_cons_self _ _)
        refine ⟨ha, ?_⟩
        rw [eventsFor_cons_match lbl _ _ (by simp [SlotEvent.label]), hb]
      · intro hnin hlag
        unfold slotCheck
        rw [if_neg hex, if_neg hnin, if_pos hlag]
        obtain ⟨ha, hb⟩ := slotCheck_fired w now rest (lbl :: ex) lbl (List.mem_cons_self _ _)
        refine ⟨ha, ?_⟩
        rw [eventsFor_cons_match lbl _ _ (by simp [SlotEvent.label]), hb]
      · intro hnin hnlag
        unfold slotCheck
        rw [if_neg hex, if_neg hnin, if_neg hnlag]
        exact slotCheck_absent w now rest ex lbl hknot hex
    · have hlbl_keys : lbl ∈ rest.map Prod.fst :=
        List.mem_map.mpr ⟨(lbl, T), htail, rfl⟩
      have hlne : l ≠ lbl := by
        intro he
        exact absurd (he ▸ hlbl_keys) (List.nodup_cons.mp hnd).1
      have hnd2 : (rest.map Prod.fst).Nodup := (List.nodup_cons.mp hnd).2
      have hnotin : lbl ∉ l :: ex := by
        intro hm
        rcases List.mem_cons.mp hm with he | he
        · exact hlne he.symm
        · exact hex he
      by_cases hlex : l ∈ ex
      · unfold slotCheck
        rw [if_pos hlex]
        exact ih ex hnd2 htail hex
      · by_cases h2 : |now - T2| ≤ w
        · unfold slotCheck
          rw [if_neg hlex, if_pos h2]
          obtain ⟨p1, p2, p3⟩ := ih (l :: ex) hnd2 htail hnotin
          refine ⟨?_, ?_, ?_⟩
          · intro hin
            obtain ⟨ha, hb⟩ := p1 hin
            refine ⟨ha, ?_⟩
            rw [eventsFor_cons_other lbl _ _ (by simp [SlotEvent.label, hlne])]
            exact hb
          · intro hnin hlag
            obtain ⟨ha, hb⟩ := p2 hnin hlag
            refine ⟨ha, ?_⟩
            rw [eventsFor_cons_other lbl _ _ (by simp [SlotEvent.label, hlne])]
            exact hb
          · intro hnin hnlag
            obtain ⟨ha, hb⟩ := p3 hnin hnlag
            refine ⟨ha, ?_⟩
            rw [eventsFor_cons_other lbl _ _ (by simp [SlotEvent.label, hlne])]
            exact hb
        · by_cases h3 : now - T2 > w
          · unfold slotCheck
            rw [if_neg hlex, if_neg h2, if_pos h3]
            obtain ⟨p1, p2, p3⟩ := ih (l :: ex) hnd2 htail hnotin
            refine ⟨?_, ?_, ?_⟩
            · intro hin
              obtain ⟨ha, hb⟩ := p1 hin
              exact ⟨ha, by simp [eventsFor, SlotEvent.label, hlne]; simpa [eventsFor] using hb⟩
            · intro hnin hlag
              obtain ⟨ha, hb⟩ := p2 hnin hlag
              exact ⟨ha, by simp [eventsFor, SlotEvent.label, hlne]; simpa [eventsFor] using hb⟩
            · intro hnin hnlag
              obtain ⟨ha, hb⟩ := p3 hnin hnlag
              exact ⟨ha, by simp [eventsFor, SlotEvent.label, hlne]; simpa [eventsFor] using hb⟩
          · unfold slotCheck
            rw [if_neg hlex, if_neg h2, if_neg h3]
            exact ih ex hnd2 htail hex

theorem runDay_fired (w : ℤ) (sched : List (String × ℤ)) (ticks : List ℤ)
    (ex : List String) (lbl : String) (h : lbl ∈ ex) :
    lbl ∈ (runDay w sched ticks ex).1
    ∧ eventsFor lbl (runDay w sched ticks ex).2 = [] := by
  induction ticks generalizing ex with
  | nil => exact ⟨h, rfl⟩
  | cons t ts ih =>
    obtain ⟨h1, h2⟩ := slotCheck_fired w t sched ex lbl h
    obtain ⟨h3, h4⟩ := ih _ h1
    exact ⟨h3, by simp only [runDay, eventsFor_append, h2, h4, List.append_nil]⟩

theorem runDay_slot_spec (w : ℤ) (sched : List (String × ℤ)) (lbl : String) (T : ℤ)
    (hnd : (sched.map Prod.fst).Nodup) (hmem : (lbl, T) ∈ sched) :
    ∀ (ticks : List ℤ) (ex : List String), ticks.Sorted (· ≤ ·) → lbl ∉ ex →
      (eventsFor lbl (runDay w sched ticks ex).2).length ≤ 1
      ∧ (∀ t : ℤ, SlotEvent.fire lbl t ∈ (runDay w sched ticks ex).2 →
          t ∈ ticks ∧ T - w ≤ t ∧ t ≤ T + w)
      ∧ ((∃ t : ℤ, SlotEvent.fire lbl t ∈ (runDay w sched ticks ex).2) ↔
          ∃ t ∈ ticks, T - w ≤ t ∧ t ≤ T + w)
      ∧ (∀ t : ℤ, SlotEvent.forfeit lbl t ∈ (runDay w sched ticks ex).2 →
          T + w < t ∧ ∀ t2 : ℤ, SlotEvent.fire lbl t2 ∉ (runDay w sched ticks ex).2) := by
  intro ticks
  induction ticks with
  | nil =>
    intro ex _ _
    refine ⟨by simp [eventsFor, runDay], ?_, ?_, ?_⟩
    · intro t ht
      simp [runDay] at ht
    · simp [runDay]
    · intro t ht
      simp [runDay] at ht
  | cons t ts ih =>
    intro ex hsort hex
    have hsort2 : ts.Sorted (· ≤ ·) := (List.sorted_cons.mp hsort).2
    have hle : ∀ u ∈ ts, t ≤ u := (List.sorted_cons.mp hsort).1
    have hrd : (runDay w sched (t :: ts) ex).2
        = (slotCheck w t sched ex).2 ++ (runDay w sched ts (slotCheck w t sched ex).1).2 :=
      rfl
    by_cases hin : |t - T| ≤ w
    · obtain ⟨hmem1, hev1⟩ := (slotCheck_unfired w t sched ex lbl T hnd hmem hex).1 hin
      obtain ⟨_, hev2⟩ := runDay_fired w sched ts _ lbl hmem1
      have hE : eventsFor lbl (runDay w sched (t :: ts) ex).2 = [SlotEvent.fire lbl t] := by
        rw [hrd, eventsFor_append, hev1, hev2]
        simp
      have hbounds : T - w ≤ t ∧ t ≤ T + w := by
        rw [abs_le] at hin
        omega
      refine ⟨by rw [hE]; simp, ?_, ?_, ?_⟩
      · intro t2 ht2
        have : SlotEvent.fire lbl t2 ∈ eventsFor lbl (runDay w sched (t :: ts) ex).2 :=
          (mem_eventsFor_fire lbl t2 _).mpr ht2
        rw [hE] at this
        rcases List.mem_singleton.mp this with h
        injection h with h1 h2
        subst h2
        exact ⟨List.mem_cons_self _ _, hbounds⟩
      · constructor
        · intro _
          exact ⟨t, List.mem_cons_self _ _, hbounds⟩
        · intro _
          refine ⟨t, (mem_eventsFor_fire lbl t _).mp ?_⟩
          rw [hE]
          exact List.mem_singleton.mpr rfl
      · intro t2 ht2
        have : SlotEvent.forfeit lbl t2 ∈ eventsFor lbl (runDay w sched (t :: ts) ex).2 :=
          (mem_eventsFor_forfeit lbl t2 _).mpr ht2
        rw [hE] at this
        exact absurd (List.mem_singleton.mp this) (by simp)
    · by_cases hlag : t - T > w
      · obtain ⟨hmem1, hev1⟩ := (slotCheck_unfired w t sched ex lbl T hnd hmem hex).2.1 hin hlag
        obtain ⟨_, hev2⟩ := runDay_fired w sched ts _ lbl hmem1
        have hE : eventsFor lbl (runDay w sched (t :: ts) ex).2
            = [SlotEvent.forfeit lbl t] := by
          rw [hrd, eventsFor_append, hev1, hev2]
          simp
        have hnofire : ∀ t2 : ℤ, SlotEvent.fire lbl t2 ∉ (runDay w sched (t :: ts) ex).2 := by
          intro t2 ht2
          have : SlotEvent.fire lbl t2 ∈ eventsFor lbl (runDay w sched (t :: ts) ex).2 :=
            (mem_eventsFor_fire lbl t2 _).mpr ht2
          rw [hE] at this
          exact absurd (List.mem_singleton.mp this) (by simp)
        refine ⟨by rw [hE]; simp, ?_, ?_, ?_⟩
        · intro t2 ht2
          exact absurd ht2 (hnofire t2)
        · constructor
          · rintro ⟨t2, ht2⟩
            exact absurd ht2 (hnofire t2)
          · rintro ⟨t2, ht2, hb1, hb2⟩
            rcases List.mem_cons.mp ht2 with he | he
            · subst he
              omega
            · have := hle t2 he
              omega
        · intro t2 ht2
          have hmem2 : SlotEvent.forfeit lbl t2 ∈ eventsFor lbl (runDay w sched (t :: ts) ex).2 :=
            (mem_eventsFor_forfeit lbl t2 _).mpr ht2
          rw [hE] at hmem2
          have heq := List.mem_singleton.mp hmem2
          injection heq with h1 h2
          subst h2
          exact ⟨by omega, hnofire⟩
      · obtain ⟨hmem1, hev1⟩ :=
          (slotCheck_unfired w t sched ex lbl T hnd hmem hex).2.2 hin hlag
        obtain ⟨ih1, ih2, ih3, ih4⟩ := ih (slotCheck w t sched ex).1 hsort2 hmem1
        have hE : eventsFor lbl (runDay w sched (t :: ts) ex).2
            = eventsFor lbl (runDay w sched ts (slotCheck w t sched ex).1).2 := by
          rw [hrd, eventsFor_append, hev1, List.nil_append]
        have hmemiff : ∀ e : SlotEvent, e.label = lbl →
            (e ∈ (runDay w sched (t :: ts) ex).2
              ↔ e ∈ (runDay w sched ts (slotCheck w t sched ex).1).2) := by
          intro e helab
          constructor
          · intro hm
            have h1 : e ∈ eventsFor lbl (runDay w sched (t :: ts) ex).2 := by
              simp [eventsFor, List.mem_filter, helab, hm]
            rw [hE] at h1
            exact (List.mem_filter.mp h1).1
          · intro hm
            have h1 : e ∈ eventsFor lbl (runDay w sched ts (slotCheck w t sched ex).1).2 := by
              simp [eventsFor, List.mem_filter, helab, hm]
            rw [← hE] at h1
            exact (List.mem_filter.mp h1).1
        have htnotwin : ¬(T - w ≤ t ∧ t ≤ T + w) := by
          rw [abs_le] at hin
          omega
        refine ⟨by rw [hE]; exact ih1, ?_, ?_, ?_⟩
        · intro t2 ht2
          have := ih2 t2 ((hmemiff _ (by simp [SlotEvent.label])).mp ht2)
          exact ⟨List.mem_cons_of_mem _ this.1, this.2.1, this.2.2⟩
        · constructor
          · rintro ⟨t2, ht2⟩
            obtain ⟨hm, hb⟩ := ih2 t2 ((hmemiff _ (by simp [SlotEvent.label])).mp ht2)
            exact ⟨t2, List.mem_cons_of_mem _ hm, hb⟩
          · rintro ⟨t2, ht2, hb1, hb2⟩
            rcases List.mem_cons.mp ht2 with he | he
            · subst he
              exact absurd ⟨hb1, hb2⟩ htnotwin
            · obtain ⟨t3, ht3⟩ := ih3.mpr ⟨t2, he, hb1, hb2⟩
              exact ⟨t3, (hmemiff _ (by simp [SlotEvent.label])).mpr ht3⟩
        · intro t2 ht2
          obtain ⟨hgt, hnof⟩ := ih4 t2 ((hmemiff _ (by simp [SlotEvent.label])).mp ht2)
          refine ⟨hgt, ?_⟩
          intro t3 ht3
          exact hnof t3 ((hmemiff _ (by simp [SlotEvent.label])).mp ht3)

/-- C1: over one server day (ticks in ascending order, fired set initially
empty), each schedule slot produces at most one event; a fire event (the
trade-entry branch) happens at a poll tick within the window around the
slot instant, never before instant minus window nor after instant plus
window; a fire event exists exactly when some poll tick lies in the
window; and a forfeit event (marked fired with no trade-entry branch)
happens only at a tick past instant plus window, for a slot that never
fired. -/
theorem C1_trigger_fire_once (w : ℤ) (sched : List (String × ℤ)) (ticks : List ℤ)
    (lbl : String) (T : ℤ)
    (hnd : (sched.map Prod.fst).Nodup) (hmem : (lbl, T) ∈ sched)
    (hsort : ticks.Sorted (· ≤ ·)) :
    (eventsFor lbl (runDay w sched ticks []).2).length ≤ 1
    ∧ (∀ t : ℤ, SlotEvent.fire lbl t ∈ (runDay w sched ticks []).2 →
        t ∈ ticks ∧ T - w ≤ t ∧ t ≤ T + w)
    ∧ ((∃ t : ℤ, SlotEvent.fire lbl t ∈ (runDay w sched ticks []).2) ↔
        ∃ t ∈ ticks, T - w ≤ t ∧ t ≤ T + w)
    ∧ (∀ t : ℤ, SlotEvent.forfeit lbl t ∈ (runDay w sched ticks []).2 →
        T + w < t ∧ ∀ t2 : ℤ, SlotEvent.fire lbl t2 ∉ (runDay w sched ticks []).2) :=
  runDay_slot_spec w sched lbl T hnd hmem ticks [] hsort (List.not_mem_nil _)

/-- C1 witness: window 10 s, one slot at 13:35:00 (second 48900), poll
ticks at 48880 and 48907; the slot fires once, at 48907. -/
theorem C1_trigger_fire_once_witness :
    (eventsFor "13:35" (runDay 10 [("13:35", 48900)] [48880, 48907] []).2).length ≤ 1
    ∧ (∃ t : ℤ, SlotEvent.fire "13:35" t ∈ (runDay 10 [("13:35", 48900)] [48880, 48907] []).2) := by
  have h := C1_trigger_fire_once 10 [("13:35", 48900)] [48880, 48907] "13:35" 48900
    (by decide) (by decide) (by decide)
  refine ⟨h.1, h.2.2.1.mpr ⟨48907, by decide, by decide, by decide⟩⟩

/-- C7: in one main-loop iteration, when the observed server day differs
from the last observed one, the state entering the slot check has the
fired flags cleared, the schedule rebuilt for the IST day and the P/L
accumulator exactly zero; when the day is unchanged the iteration is just
the slot check and leaves the accumulator untouched; and the slot-check
phase never writes the accumulator for any state. -/
theorem C7_day_rollover (st : LoopState) (server_day : ℤ) (ist_day : PyDate) (now : NaiveDT) :
    (st.current_server_day ≠ some server_day →
      (dayStart st server_day ist_day).executed_ist_today = []
      ∧ (dayStart st server_day ist_day).today_server_sched
          = build_server_schedule_for_day ist_day
      ∧ (dayStart st server_day ist_day).daily_realized_pnl = 0
      ∧ (loopIter st server_day ist_day now).daily_realized_pnl = 0)
    ∧ (st.current_server_day = some server_day →
      loopIter st server_day ist_day now = applySlotCheck st now
      ∧ (loopIter st server_day ist_day now).daily_realized_pnl = st.daily_realized_pnl)
    ∧ (∀ st2 : LoopState, (applySlotCheck st2 now).daily_realized_pnl
        = st2.daily_realized_pnl) := by
  refine ⟨?_, ?_, fun st2 => rfl⟩
  · intro hne
    unfold loopIter dayStart
    rw [if_pos hne]
    exact ⟨rfl, rfl, rfl, rfl⟩
  · intro heq
    unfold loopIter dayStart
    rw [if_neg (by simp [heq])]
    exact ⟨rfl, rfl⟩

/-- C7 witness: a state on day 3 with pending flags and P/L 7 rolls to
day 4 with cleared flags and zero P/L; the same loop iteration on an
unchanged day preserves P/L 7. -/
theorem C7_day_rollover_witness :
    ((⟨["10:35"], some 3, [], 7⟩ : LoopState).current_server_day ≠ some 4
      ∧ (dayStart ⟨["10:35"], some 3, [], 7⟩ 4 ⟨738900, 1⟩).executed_ist_today = []
      ∧ (dayStart ⟨["10:35"], some 3, [], 7⟩ 4 ⟨738900, 1⟩).daily_realized_pnl = 0
      ∧ (loopIter ⟨["10:35"], some 3, [], 7⟩ 4 ⟨738900, 1⟩ ⟨738900, 0⟩).daily_realized_pnl = 0)
    ∧ ((⟨[], some 4, [], 7⟩ : LoopState).current_server_day = some 4
      ∧ (loopIter ⟨[], some 4, [], 7⟩ 4 ⟨738900, 1⟩ ⟨738900, 0⟩).daily_realized_pnl = 7) := by
  constructor
  · have h := (C7_day_rollover ⟨["10:35"], some 3, [], 7⟩ 4 ⟨738900, 1⟩ ⟨738900, 0⟩).1 (by decide)
    exact ⟨by decide, h.1, h.2.2.1, h.2.2.2⟩
  · have h := ((C7_day_rollover ⟨[], some 4, [], 7⟩ 4 ⟨738900, 1⟩ ⟨738900, 0⟩).2.1 rfl).2
    exact ⟨rfl, h⟩

/-! TradeWatcher reconciliation. -/

theorem matched_deals_nil (pt : Option ℤ) (tag : String) : matched_deals pt tag [] = [] := by
  unfold matched_deals
  split_ifs <;> rfl

theorem insertByTime_length (d : Deal) (l : List Deal) :
    (insertByTime d l).length = l.length + 1 := by
  induction l with
  | nil => rfl
  | cons e es ih =>
    unfold insertByTime
    split_ifs <;> simp [ih]

theorem sortByTime_length (l : List Deal) : (sortByTime l).length = l.length := by
  induction l with
  | nil => rfl
  | cons d l ih =>
    simp only [sortByTime, List.foldr] at ih ⊢
    rw [insertByTime_length, ih]
    rfl

/-- C6: when the position ticket was never resolved and no history deal
matches the correlation tag (for the symbol), the watcher still produces a
record: profit 0.00 and outcome Closed. The embedded watcher_phase3 is a
total function, so the degraded record is returned rather than any
exception escaping the task. -/
theorem C6_watcher_degrades_to_closed (tag : String) (deals : List Deal)
    (hnomatch : deals.filter
      (fun d => containsSub d.comment tag && d.symbol == SYMBOL) = []) :
    watcher_phase3 none tag deals = (0, "Closed") := by
  unfold watcher_phase3
  by_cases hd : deals.isEmpty
  · rw [if_pos hd]
  · rw [if_neg hd]
    have hm : matched_deals none tag deals = [] := by
      unfold matched_deals
      simp only [truthyTicket, Bool.false_eq_true, if_false, List.isEmpty_nil, if_true,
        hnomatch]
    rw [hm]
    rfl

/-- C6 witness: one deal for another position whose comment does not hold
the tag; the watcher returns profit 0 and outcome Closed. -/
theorem C6_watcher_degrades_witness :
    ([⟨5, "XAUUSD.QTR", 3, 50, "other"⟩] : List Deal).filter
        (fun d => containsSub d.comment "zz" && d.symbol == SYMBOL) = []
    ∧ watcher_phase3 none "zz" [⟨5, "XAUUSD.QTR", 3, 50, "other"⟩] = (0, "Closed") := by
  have hnm : ([⟨5, "XAUUSD.QTR", 3, 50, "other"⟩] : List Deal).filter
      (fun d => containsSub d.comment "zz" && d.symbol == SYMBOL) = [] := by
    simp [containsSub, containsL, startsWithL, SYMBOL]
  exact ⟨hnm, C6_watcher_degrades_to_closed "zz" _ hnm⟩

/-- C10: when matched deals exist, their profits sum to exactly zero, and
the last matched deal comment carries neither a tp nor an sl marker, the
outcome is classified by the strict sign test profit greater than zero, so
zero profit is recorded as LOSS. -/
theorem C10_zero_profit_is_loss (pt : Option ℤ) (tag : String) (deals : List Deal)
    (hne : matched_deals pt tag deals ≠ [])
    (hsum : ((sortByTime (matched_deals pt tag deals)).map Deal.profit).sum = 0)
    (hlast : ∀ lastd, (sortByTime (matched_deals pt tag deals)).getLast? = some lastd →
        containsSub (lowerStr lastd.comment) "tp" = false
        ∧ containsSub (lowerStr lastd.comment) "sl" = false) :
    watcher_phase3 pt tag deals = (0, "LOSS") := by
  have hdne : deals ≠ [] := by
    intro h
    rw [h] at hne
    exact hne (matched_deals_nil pt tag)
  unfold watcher_phase3
  rw [if_neg (by simpa [List.isEmpty_iff] using hdne)]
  have hsne : sortByTime (matched_deals pt tag deals) ≠ [] := by
    intro h
    apply hne
    have hl := sortByTime_length (matched_deals pt tag deals)
    rw [h] at hl
    exact List.length_eq_zero.mp hl.symm
  obtain ⟨lastd, hl⟩ := Option.isSome_iff_exists.mp (List.getLast?_isSome.mpr hsne)
  obtain ⟨htp, hsl⟩ := hlast lastd hl
  simp only [hl, hsum, classify_result, htp, hsl, Bool.false_eq_true, if_false]
  norm_num

/-- C10 witness: a single matched deal with zero profit and a neutral
comment is recorded as LOSS. -/
theorem C10_zero_profit_is_loss_witness :
    (matched_deals (some 1) "g" [⟨1, "XAUUSD.QTR", 0, 100, "x"⟩] ≠ []
      ∧ ((sortByTime (matched_deals (some 1) "g" [⟨1, "XAUUSD.QTR", 0, 100, "x"⟩])).map
          Deal.profit).sum = 0)
    ∧ watcher_phase3 (some 1) "g" [⟨1, "XAUUSD.QTR", 0, 100, "x"⟩] = (0, "LOSS") := by
  have hm : matched_deals (some 1) "g" [⟨1, "XAUUSD.QTR", 0, 100, "x"⟩]
      = [⟨1, "XAUUSD.QTR", 0, 100, "x"⟩] := by
    simp [matched_deals, truthyTicket, SYMBOL]
  refine ⟨⟨by rw [hm]; simp, by rw [hm]; simp [sortByTime, insertByTime]⟩, ?_⟩
  apply C10_zero_profit_is_loss
  · rw [hm]
    simp
  · rw [hm]
    simp [sortByTime, insertByTime]
  · intro lastd hlast
    rw [hm] at hlast
    simp [sortByTime, insertByTime] at hlast
    subst hlast
    constructor <;> simp [containsSub, containsL, startsWithL, lowerStr]

/-! PositionReanchor. -/

/-- Evaluation of the re-anchored stops for a confirmed BUY entry at 1900
with point 0.01, two digits, and no broker minimum distance. -/
theorem reanchored_at_1900 :
    reanchored_sl_tp ⟨1/100, 2, 0⟩ 1900 "BUY" = (1898, 1905) := by
  unfold reanchored_sl_tp compute_sl_tp_from enforce_min_distance normalize_price
  have h1 : roundToDigits 2 ((1900 : ℚ) - SL_PIPS * PIP_SIZE) = 1898 := by
    rw [roundToDigits_low 2 _ 189800 (by norm_num [SL_PIPS, PIP_SIZE])
      (by norm_num [SL_PIPS, PIP_SIZE])]
    norm_num
  have h2 : roundToDigits 2 ((1900 : ℚ) + TP_PIPS * PIP_SIZE) = 1905 := by
    rw [roundToDigits_low 2 _ 190500 (by norm_num [TP_PIPS, PIP_SIZE])
      (by norm_num [TP_PIPS, PIP_SIZE])]
    norm_num
  simp only [beq_self_eq_true, if_true, reduceIte, h1, h2]
  norm_num

/-- C8 counterexample: with point 0.01 and an attached stop loss exactly
one point away from the recomputed one (1898.01 against 1898.00), the code
issues a modify request, although neither value differs by more than one
point: the source modifies on at least one point of difference, not only
on strictly more than one. -/
theorem C8_counterexample :
    reanchor_sl_tp_by_position ⟨1/100, 2, 0⟩ [⟨7, 1900, 189801/100, 1905⟩] 7 "BUY"
      = some (1898, 1905)
    ∧ ¬((1/100 : ℚ) < |(189801/100 : ℚ) - 1898| ∨ (1/100 : ℚ) < |(1905 : ℚ) - 1905|) := by
  constructor
  · unfold reanchor_sl_tp_by_position
    rw [if_neg (by decide)]
    rw [show (List.find? (fun p => p.ticket == 7)
        [(⟨7, 1900, 189801/100, 1905⟩ : Position)])
        = some ⟨7, 1900, 189801/100, 1905⟩ from rfl]
    simp only [reanchored_at_1900]
    rw [if_neg (by norm_num [abs])]
  · norm_num [abs]

/-- C8 amended: a missing position is a no-op, and for a found position
(with a truthy ticket) a modify request is issued exactly when the
recomputed, minimum-distance-enforced stop loss or take profit differs
from the attached one by at least one point (not strictly more than one). -/
theorem C8_reanchor_modify_iff (si : SymInfo) (positions : List Position)
    (ticket : ℤ) (side : String) :
    (positions.find? (fun p => p.ticket == ticket) = none →
      reanchor_sl_tp_by_position si positions ticket side = none)
    ∧ (∀ pos, ticket ≠ 0 → positions.find? (fun p => p.ticket == ticket) = some pos →
        (reanchor_sl_tp_by_position si positions ticket side ≠ none ↔
          si.point ≤ |pos.sl - (reanchored_sl_tp si pos.price_open side).1|
          ∨ si.point ≤ |pos.tp - (reanchored_sl_tp si pos.price_open side).2|)) := by
  constructor
  · intro hf
    unfold reanchor_sl_tp_by_position
    split_ifs with h0
    · rfl
    · rw [hf]
  · intro pos ht hf
    unfold reanchor_sl_tp_by_position
    rw [if_neg (by simpa using ht)]
    simp only [hf]
    split_ifs with hc
    · constructor
      · intro h
        exact absurd rfl h
      · rintro (h | h)
        · exact absurd hc.1 (not_lt.mpr h)
        · exact absurd hc.2 (not_lt.mpr h)
    · rw [not_and_or, not_lt, not_lt] at hc
      constructor
      · intro _
        exact hc
      · intro _
        simp

/-- C8 witness: an empty position list is a no-op; a position whose
attached stop loss is 198 points away from the recomputed one gets a
modify request. -/
theorem C8_reanchor_modify_witness :
    reanchor_sl_tp_by_position ⟨1/100, 2, 0⟩ [] 7 "BUY" = none
    ∧ reanchor_sl_tp_by_position ⟨1/100, 2, 0⟩ [⟨7, 1900, 1700, 1905⟩] 7 "BUY" ≠ none := by
  constructor
  · exact (C8_reanchor_modify_iff ⟨1/100, 2, 0⟩ [] 7 "BUY").1 rfl
  · refine ((C8_reanchor_modify_iff ⟨1/100, 2, 0⟩ [⟨7, 1900, 1700, 1905⟩] 7 "BUY").2
      ⟨7, 1900, 1700, 1905⟩ (by norm_num) rfl).mpr (Or.inl ?_)
    rw [reanchored_at_1900]
    norm_num [abs]

end Botquant
